import Mathlib

/-!
Verification development for the sudoku generator in `sudokugen/gen_sol.py`.

The 9x9 grid is embedded as a row-major list of cell values: cell `(x, y)`
lives at index `9 * x + y`, and reads outside the stored prefix yield 0, so
every list denotes a total grid.  The randomized choices of the source
(`np.random.randint`, set iteration order) are made explicit: an
`oracle : Nat → Nat` stream supplies one draw per loop iteration, and set
iteration is fixed to ascending order.  The unbounded `while True` loops are
embedded as fuel-indexed recursions returning `none` when the fuel runs out.
-/

abbrev Board := List Nat

/-- `board[x, y]`. -/
def cellGet (b : Board) (x y : Nat) : Nat := b.getD (9 * x + y) 0

/-- Extend the list with zeros so that all 81 cells are stored. -/
def padBoard (b : Board) : Board := b ++ List.replicate (81 - b.length) 0

/-- `board[x, y] = v`. -/
def setCell (b : Board) (x y v : Nat) : Board := (padBoard b).set (9 * x + y) v

/-- Modelled from the spec: `BOARD_DIM` lives in `constants.py`, which is not
part of the sources; the spec fixes a 9x9 grid. -/
def BOARD_DIM : Nat := 9

/-- Modelled from the spec: `COMPLETE_ROW` lives in `constants.py`, which is
not part of the sources; the spec's candidate sets are subsets of {1..9}.
Sets of small naturals are embedded as duplicate-free ascending lists. -/
def COMPLETE_ROW : List Nat := (List.range 9).map (· + 1)

/-- Modelled from the spec: `BLOCK_ARRAY` lives in `constants.py`, which is
not part of the sources; the spec describes the static partition of the grid
into nine 3x3 blocks, with the diagonal blocks numbered 0, 4 and 8. -/
def BLOCK_ARRAY (x y : Nat) : Nat := 3 * (x / 3) + y / 3

/-- `np.count_nonzero(board)` over the 81 cells. -/
def countFilled (b : Board) : Nat :=
  ((List.range 81).filter (fun i => cellGet b (i / 9) (i % 9) != 0)).length

/-- `is_filled` from the source: the nonzero count equals `BOARD_DIM ** 2`. -/
def isFilled (b : Board) : Bool :=
  countFilled b == BOARD_DIM ^ 2

/-- The multiset of values in row `x` (`board[x, :]`). -/
def rowVals (b : Board) (x : Nat) : List Nat :=
  (List.range 9).map (fun y => cellGet b x y)

/-- The multiset of values in column `y` (`board[:, y]`). -/
def colVals (b : Board) (y : Nat) : List Nat :=
  (List.range 9).map (fun x => cellGet b x y)

/-- The values in the 3x3 block of `(x, y)`, via the `squares()` grouping. -/
def blockVals (b : Board) (x y : Nat) : List Nat :=
  ((List.range 81).filter
      (fun i => BLOCK_ARRAY (i / 9) (i % 9) == BLOCK_ARRAY x y)).map
    (fun i => cellGet b (i / 9) (i % 9))

/-- `choices_from_square`: `COMPLETE_ROW` minus the values in the block. -/
def choicesFromSquare (b : Board) (x y : Nat) : List Nat :=
  COMPLETE_ROW.filter (fun v => !(blockVals b x y).contains v)

/-- `construct_candidates`: the values possible from the column, row and
block simultaneously (`possible_from_col & possible_from_row &
possible_from_square`). -/
def constructCandidates (b : Board) (x y : Nat) : List Nat :=
  COMPLETE_ROW.filter (fun v =>
    !(colVals b y).contains v && !(rowVals b x).contains v &&
      (choicesFromSquare b x y).contains v)

/-- `np.argwhere(board == 0)`: row-major indices of the empty cells. -/
def zeroIndices (b : Board) : List Nat :=
  (List.range 81).filter (fun i => cellGet b (i / 9) (i % 9) == 0)

/-- `get_unfilled_cell_rand`: pick the entry of `zeroIndices` at the random
draw `r` (reduced modulo the length, mirroring `np.random.randint(len)`);
`none` embeds the `IndexError("No unfilled cell remaining!")` raise. -/
def getUnfilledCellRand (r : Nat) (b : Board) : Option (Nat × Nat) :=
  if (zeroIndices b).length = 0 then none
  else
    some ((zeroIndices b).getD (r % (zeroIndices b).length) 0 / 9,
          (zeroIndices b).getD (r % (zeroIndices b).length) 0 % 9)

/-- One step of the `propagate_constraint` scan: if the cell's candidate set
is a singleton, fill the cell with its member (`candidates.pop()`).  The
source checks only the candidate count, not whether the cell is empty. -/
def propagateCell (b : Board) (x y : Nat) : Board :=
  let candidates := constructCandidates b x y
  if candidates.length = 1 then setCell b x y (candidates.headD 0) else b

/-- The `propagate_constraint` scan truncated to the first `k` cells of the
row-major order; `k = 81` is the full pass. -/
def propagateUpTo (b : Board) (k : Nat) : Board :=
  (List.range k).foldl (fun acc i => propagateCell acc (i / 9) (i % 9)) b

/-- `propagate_constraint`: one full row-major pass. -/
def propagateConstraint (b : Board) : Board :=
  propagateUpTo b 81

/-- The frames pushed by the candidate loop of `backtrack_iter` (and of
`solution_unique`): for each candidate value, copy the board, assign the
value, run one propagation pass, push.  The head of the returned list is the
top of the stack, i.e. the last candidate pushed. -/
def expandFrames (b : Board) (x y : Nat) : List Board :=
  ((constructCandidates b x y).map
    (fun v => propagateConstraint (setCell b x y v))).reverse

/-- The ways the `backtrack_iter` loop can end: returning a board, the
`stack.pop()` `IndexError` on an empty stack, or the (unreachable)
`IndexError` raised by `get_unfilled_cell_rand`. -/
inductive BTResult
  | found (b : Board)
  | popEmpty
  | noCell
deriving DecidableEq

/-- In `BTResult.found` the board is filled; trivially true otherwise. -/
def resultFilled : BTResult → Bool
  | .found b => isFilled b
  | _ => true

/-- `backtrack_iter`, fuel-indexed.  The head of the list is the top of the
explicit stack; `oracle 0` is this iteration's random draw and the stream is
shifted on iterations that consume a draw. -/
def backtrackIter (oracle : Nat → Nat) : Nat → List Board → Option BTResult
  | 0, _ => none
  | _ + 1, [] => some .popEmpty
  | fuel + 1, b :: rest =>
    if isFilled b then some (.found b)
    else
      match getUnfilledCellRand (oracle 0) b with
      | none => some .noCell
      | some (x, y) =>
        backtrackIter (fun n => oracle (n + 1)) fuel (expandFrames b x y ++ rest)

/-- `np.all(np.equal(b1, b2))` over the 81 cells. -/
def boardEq (b1 b2 : Board) : Bool :=
  (List.range 81).all
    (fun i => cellGet b1 (i / 9) (i % 9) == cellGet b2 (i / 9) (i % 9))

/-- `board_in_solutions`: membership up to grid equality. -/
def boardInSolutions (b : Board) (solutions : List Board) : Bool :=
  solutions.any (fun sol => boardEq b sol)

/-- The loop of `solution_unique`, fuel-indexed, carrying the stack and the
recorded solutions.  `some (some v)` is a normal return with verdict `v`;
`some none` embeds the (unreachable) escape of the `IndexError` raised by
`get_unfilled_cell_rand`; `none` means the fuel ran out. -/
def solutionUniqueAux (oracle : Nat → Nat) :
    Nat → List Board → List Board → Option (Option Bool)
  | 0, _, _ => none
  | _ + 1, [], solutions => some (some (solutions.length == 1))
  | fuel + 1, b :: rest, solutions =>
    if isFilled b then
      let solutions' :=
        if boardInSolutions b solutions then solutions else solutions ++ [b]
      if 1 < solutions'.length then some (some false)
      else solutionUniqueAux oracle fuel rest solutions'
    else
      match getUnfilledCellRand (oracle 0) b with
      | none => some none
      | some (x, y) =>
        solutionUniqueAux (fun n => oracle (n + 1)) fuel
          (expandFrames b x y ++ rest) solutions

/-- `solution_unique(board)`: the loop started on the singleton stack with no
recorded solutions. -/
def solutionUnique (oracle : Nat → Nat) (fuel : Nat) (board : Board) :
    Option (Option Bool) :=
  solutionUniqueAux oracle fuel [board] []

/-- The exhaustive variant of the `solution_unique` traversal, following the
spec's words: it walks the same tree with the same deduplication of complete
grids into the solution registry, but never stops early, and returns the
full registry when the stack empties.  It is the reference point for the
claim that the verdict of `solution_unique` matches what its exhaustive
search encounters. -/
def collectSolutions (oracle : Nat → Nat) :
    Nat → List Board → List Board → Option (List Board)
  | 0, _, _ => none
  | _ + 1, [], solutions => some solutions
  | fuel + 1, b :: rest, solutions =>
    if isFilled b then
      let solutions' :=
        if boardInSolutions b solutions then solutions else solutions ++ [b]
      collectSolutions oracle fuel rest solutions'
    else
      match getUnfilledCellRand (oracle 0) b with
      | none => none
      | some (x, y) =>
        collectSolutions (fun n => oracle (n + 1)) fuel
          (expandFrames b x y ++ rest) solutions

/-- Two cells share a row, a column, or a block. -/
def SameGroup (x1 y1 x2 y2 : Nat) : Prop :=
  x1 = x2 ∨ y1 = y2 ∨ BLOCK_ARRAY x1 y1 = BLOCK_ARRAY x2 y2

instance (x1 y1 x2 y2 : Nat) : Decidable (SameGroup x1 y1 x2 y2) := by
  unfold SameGroup; infer_instance

/-- No row, column or block of the board holds a repeated nonzero value. -/
def Consistent (b : Board) : Prop :=
  ∀ x1 < 9, ∀ y1 < 9, ∀ x2 < 9, ∀ y2 < 9,
    (x1, y1) ≠ (x2, y2) → SameGroup x1 y1 x2 y2 →
    cellGet b x1 y1 ≠ 0 → cellGet b x1 y1 ≠ cellGet b x2 y2

set_option synthInstance.maxSize 1024 in
set_option synthInstance.maxHeartbeats 1000000 in
instance (b : Board) : Decidable (Consistent b) :=
  inferInstanceAs (Decidable (∀ x1 < 9, ∀ y1 < 9, ∀ x2 < 9, ∀ y2 < 9,
    (x1, y1) ≠ (x2, y2) → SameGroup x1 y1 x2 y2 →
    cellGet b x1 y1 ≠ 0 → cellGet b x1 y1 ≠ cellGet b x2 y2))

/-- Every cell value is at most 9 (the spec's grid carries values in [0,9]). -/
def WellFormed (b : Board) : Prop :=
  ∀ x < 9, ∀ y < 9, cellGet b x y ≤ 9

instance (b : Board) : Decidable (WellFormed b) := by
  unfold WellFormed; infer_instance

/-- Occurrences of value `v` in row `x`. -/
def rowCount (b : Board) (x v : Nat) : Nat := (rowVals b x).count v

/-- Occurrences of value `v` in column `y`. -/
def colCount (b : Board) (y v : Nat) : Nat := (colVals b y).count v

/-- Occurrences of value `v` in the block of `(x, y)`. -/
def blockCount (b : Board) (x y v : Nat) : Nat := (blockVals b x y).count v

/-- A fixed deterministic oracle for concrete runs. -/
def oracle0 : Nat → Nat := fun _ => 0

/-- The all-zero (empty) board. -/
def zeroBoard : Board := List.replicate 81 0

/-- The board every cell of which holds 1. -/
def onesBoard : Board := List.replicate 81 1

/-- A valid complete solution (the standard shift construction). -/
def solA : Board :=
  [1, 2, 3, 4, 5, 6, 7, 8, 9,
   4, 5, 6, 7, 8, 9, 1, 2, 3,
   7, 8, 9, 1, 2, 3, 4, 5, 6,
   2, 3, 4, 5, 6, 7, 8, 9, 1,
   5, 6, 7, 8, 9, 1, 2, 3, 4,
   8, 9, 1, 2, 3, 4, 5, 6, 7,
   3, 4, 5, 6, 7, 8, 9, 1, 2,
   6, 7, 8, 9, 1, 2, 3, 4, 5,
   9, 1, 2, 3, 4, 5, 6, 7, 8]

/-- An incomplete grid whose single empty cell (0, 0) has an empty candidate
set: 1 is the only value missing from its row, but 1 already sits in its
column at (1, 0).  No push ever happens from it. -/
def deadEndBoard : Board :=
  [0, 2, 3, 4, 5, 6, 7, 8, 9] ++ List.replicate 72 1

/-- A consistent partial grid obtained from `solA` by putting 2 at (0, 0)
and clearing (0, 1) and (3, 0).  Both empty cells have empty candidate sets
(the value each row is missing already sits in the cell's column), so the
search can never fill them. -/
def blockedBoard : Board :=
  [2, 0, 3, 4, 5, 6, 7, 8, 9,
   4, 5, 6, 7, 8, 9, 1, 2, 3,
   7, 8, 9, 1, 2, 3, 4, 5, 6,
   0, 3, 4, 5, 6, 7, 8, 9, 1,
   5, 6, 7, 8, 9, 1, 2, 3, 4,
   8, 9, 1, 2, 3, 4, 5, 6, 7,
   3, 4, 5, 6, 7, 8, 9, 1, 2,
   6, 7, 8, 9, 1, 2, 3, 4, 5,
   9, 1, 2, 3, 4, 5, 6, 7, 8]

/-- `solA` with four cells cleared: (0,7), (0,8), (1,5) and (2,8).  Its
unique completion as a sudoku is `solA` (rows 1 and 2 have single holes with
forced values, then row 0 is forced), yet the search of `solution_unique`
never encounters `solA`: the propagation pass overwrites filled cells along
the way. -/
def qBoard : Board :=
  [1, 2, 3, 4, 5, 6, 7, 0, 0,
   4, 5, 6, 7, 8, 0, 1, 2, 3,
   7, 8, 9, 1, 2, 3, 4, 5, 0,
   2, 3, 4, 5, 6, 7, 8, 9, 1,
   5, 6, 7, 8, 9, 1, 2, 3, 4,
   8, 9, 1, 2, 3, 4, 5, 6, 7,
   3, 4, 5, 6, 7, 8, 9, 1, 2,
   6, 7, 8, 9, 1, 2, 3, 4, 5,
   9, 1, 2, 3, 4, 5, 6, 7, 8]

/-- The single complete grid the `solution_unique` search reaches from
`qBoard`.  It is a valid full sudoku but disagrees with `qBoard`'s own
filled cells (e.g. cell (0,5) holds 9 here but 6 in `qBoard`). -/
def xBoard : Board :=
  [1, 2, 3, 4, 5, 9, 7, 8, 6,
   4, 5, 6, 7, 8, 3, 1, 2, 9,
   7, 8, 9, 1, 2, 6, 4, 5, 3,
   2, 3, 4, 5, 6, 7, 8, 9, 1,
   5, 6, 7, 8, 9, 1, 2, 3, 4,
   8, 9, 1, 2, 3, 4, 5, 6, 7,
   3, 4, 5, 6, 7, 8, 9, 1, 2,
   6, 7, 8, 9, 1, 2, 3, 4, 5,
   9, 1, 2, 3, 4, 5, 6, 7, 8]

/-- Termination potential of one stack frame: it shrinks exponentially as
the frame fills up. -/
def frameMeasure (b : Board) : Nat := 10 ^ (81 - countFilled b)

/-- Termination potential of a whole stack: the sum of its frames'. -/
def stackMeasure (s : List Board) : Nat := (s.map frameMeasure).sum

/-- `_create_puzzle`, fuel-indexed through its verifier calls.  `positions`
is the shuffled `np.arange(81)` in the order the loop pops it; position `p`
addresses cell `(p % BOARD_DIM, p / BOARD_DIM)`.  The cell is cleared and
stays cleared when `solution_unique` answers true; otherwise the remembered
value is restored, which returns the grid to its previous state because
every position is visited at most once.  A verifier call that exhausts its
fuel aborts the whole run with `none`. -/
def createPuzzle (oracle : Nat → Nat) (verifierFuel : Nat) :
    List Nat → Board → Option Board
  | [], board => some board
  | position :: positions, board =>
    let x := position % BOARD_DIM
    let y := position / BOARD_DIM
    let cleared := setCell board x y 0
    match solutionUnique oracle verifierFuel cleared with
    | some (some true) => createPuzzle oracle verifierFuel positions cleared
    | some (some false) => createPuzzle oracle verifierFuel positions board
    | _ => none

/-! ### Basic board lemmas -/

theorem length_padBoard (b : Board) : (padBoard b).length = max 81 b.length := by
  simp [padBoard]; omega

theorem getD_padBoard (b : Board) (i : Nat) :
    (padBoard b).getD i 0 = b.getD i 0 := by
  simp only [padBoard, List.getD_eq_getElem?_getD]
  rcases Nat.lt_or_ge i b.length with h | h
  · rw [List.getElem?_append_left h]
  · rw [List.getElem?_append_right h, List.getElem?_eq_none h]
    rcases Nat.lt_or_ge (i - b.length) (81 - b.length) with h2 | h2
    · rw [List.getElem?_replicate_of_lt h2]; rfl
    · rw [List.getElem?_eq_none (by simpa using h2)]

theorem cellGet_setCell_eq (b : Board) {x y : Nat} (hx : x < 9) (hy : y < 9)
    (v : Nat) : cellGet (setCell b x y v) x y = v := by
  unfold cellGet setCell
  rw [List.getD_eq_getElem?_getD,
    List.getElem?_set_self (by rw [length_padBoard]; omega)]
  rfl

theorem cellGet_setCell_ne (b : Board) {x y x' y' : Nat} (hy : y < 9)
    (hy' : y' < 9) (hne : (x', y') ≠ (x, y)) (v : Nat) :
    cellGet (setCell b x y v) x' y' = cellGet b x' y' := by
  have hpair : ¬(x' = x ∧ y' = y) := by simpa [Prod.ext_iff] using hne
  have hidx : 9 * x + y ≠ 9 * x' + y' := by
    intro h
    exact hpair ⟨by omega, by omega⟩
  unfold cellGet setCell
  rw [List.getD_eq_getElem?_getD, List.getElem?_set_ne hidx,
    ← List.getD_eq_getElem?_getD]
  exact getD_padBoard b _

/-! ### Membership characterizations of the candidate machinery -/

theorem mem_COMPLETE_ROW {a : Nat} : a ∈ COMPLETE_ROW ↔ 1 ≤ a ∧ a ≤ 9 := by
  simp only [COMPLETE_ROW, List.mem_map, List.mem_range]
  constructor
  · rintro ⟨i, hi, rfl⟩; omega
  · intro h; exact ⟨a - 1, by omega, by omega⟩

theorem mem_rowVals {b : Board} {x a : Nat} :
    a ∈ rowVals b x ↔ ∃ y, y < 9 ∧ cellGet b x y = a := by
  simp [rowVals, List.mem_map, List.mem_range]

theorem mem_colVals {b : Board} {y a : Nat} :
    a ∈ colVals b y ↔ ∃ x, x < 9 ∧ cellGet b x y = a := by
  simp [colVals, List.mem_map, List.mem_range]

theorem mem_blockVals {b : Board} {x y a : Nat} :
    a ∈ blockVals b x y ↔
      ∃ u v, u < 9 ∧ v < 9 ∧ BLOCK_ARRAY u v = BLOCK_ARRAY x y ∧
        cellGet b u v = a := by
  simp only [blockVals, List.mem_map, List.mem_filter, List.mem_range,
    beq_iff_eq]
  constructor
  · rintro ⟨i, ⟨hi, hblk⟩, hval⟩
    exact ⟨i / 9, i % 9, by omega, by omega, hblk, hval⟩
  · rintro ⟨u, v, hu, hv, hblk, hval⟩
    refine ⟨9 * u + v, ⟨by omega, ?_⟩, ?_⟩
    · have h1 : (9 * u + v) / 9 = u := by omega
      have h2 : (9 * u + v) % 9 = v := by omega
      rw [h1, h2]; exact hblk
    · have h1 : (9 * u + v) / 9 = u := by omega
      have h2 : (9 * u + v) % 9 = v := by omega
      rw [h1, h2]; exact hval

theorem contains_iff_mem {l : List Nat} {a : Nat} :
    l.contains a = true ↔ a ∈ l := by
  constructor
  · intro h
    rcases List.contains_iff_exists_mem_beq.mp h with ⟨a', ha', he⟩
    rwa [show a = a' from by simpa using he]
  · intro h
    exact List.contains_iff_exists_mem_beq.mpr ⟨a, h, by simp⟩

theorem mem_choicesFromSquare {b : Board} {x y a : Nat} :
    a ∈ choicesFromSquare b x y ↔
      a ∈ COMPLETE_ROW ∧ a ∉ blockVals b x y := by
  simp [choicesFromSquare, List.mem_filter, contains_iff_mem]

theorem mem_constructCandidates {b : Board} {x y a : Nat} :
    a ∈ constructCandidates b x y ↔
      (1 ≤ a ∧ a ≤ 9) ∧ a ∉ colVals b y ∧ a ∉ rowVals b x ∧
        a ∉ blockVals b x y := by
  simp only [constructCandidates, List.mem_filter, Bool.and_eq_true,
    Bool.not_eq_true', ← Bool.not_eq_true, contains_iff_mem,
    mem_choicesFromSquare, mem_COMPLETE_ROW]
  tauto

/-! ### Counting filled and empty cells -/

theorem filter_compl_length (p q : Nat → Bool) :
    ∀ l : List Nat, (∀ a ∈ l, p a = !q a) →
      (l.filter p).length + (l.filter q).length = l.length := by
  intro l
  induction l with
  | nil => intro _; rfl
  | cons a t ih =>
    intro h
    have ha := h a (by simp)
    have ht := ih fun x hx => h x (by simp [hx])
    cases hq : q a
    · rw [hq] at ha
      simp [List.filter_cons, ha, hq]
      omega
    · rw [hq] at ha
      simp [List.filter_cons, ha, hq]
      omega

theorem countFilled_add_zeroIndices (b : Board) :
    countFilled b + (zeroIndices b).length = 81 := by
  have h := filter_compl_length (fun i => cellGet b (i / 9) (i % 9) != 0)
    (fun i => cellGet b (i / 9) (i % 9) == 0) (List.range 81)
    (fun a _ => rfl)
  simpa [countFilled, zeroIndices] using h

theorem countFilled_le (b : Board) : countFilled b ≤ 81 := by
  have := countFilled_add_zeroIndices b; omega

theorem mem_zeroIndices {b : Board} {i : Nat} :
    i ∈ zeroIndices b ↔ i < 81 ∧ cellGet b (i / 9) (i % 9) = 0 := by
  simp [zeroIndices, List.mem_filter, List.mem_range]

theorem isFilled_iff {b : Board} : isFilled b = true ↔ countFilled b = 81 := by
  have : BOARD_DIM ^ 2 = 81 := rfl
  simp [isFilled, this]

/-! ### Cell selection (`get_unfilled_cell_rand`) -/

theorem getUnfilledCellRand_eq_none_iff {r : Nat} {b : Board} :
    getUnfilledCellRand r b = none ↔ isFilled b = true := by
  have hsum := countFilled_add_zeroIndices b
  unfold getUnfilledCellRand
  split
  next h =>
    simp only [true_iff]
    rw [isFilled_iff]; omega
  next h =>
    constructor
    · intro hcon; exact absurd hcon (by simp)
    · intro hfill
      rw [isFilled_iff] at hfill
      omega

theorem getUnfilledCellRand_some_spec {r : Nat} {b : Board} {x y : Nat}
    (h : getUnfilledCellRand r b = some (x, y)) :
    x < 9 ∧ y < 9 ∧ cellGet b x y = 0 ∧ 9 * x + y ∈ zeroIndices b := by
  unfold getUnfilledCellRand at h
  split at h
  next => exact absurd h (by simp)
  next hlen =>
    simp only [Option.some.injEq, Prod.mk.injEq] at h
    obtain ⟨hx, hy⟩ := h
    have hlt : r % (zeroIndices b).length < (zeroIndices b).length :=
      Nat.mod_lt _ (by omega)
    have hmem : (zeroIndices b).getD (r % (zeroIndices b).length) 0 ∈
        zeroIndices b := by
      rw [List.getD_eq_getElem?_getD, List.getElem?_eq_getElem hlt]
      exact List.getElem_mem _
    have hspec := mem_zeroIndices.mp hmem
    have hflat : 9 * ((zeroIndices b).getD (r % (zeroIndices b).length) 0 / 9)
        + (zeroIndices b).getD (r % (zeroIndices b).length) 0 % 9
        = (zeroIndices b).getD (r % (zeroIndices b).length) 0 := by omega
    subst hx hy
    refine ⟨by omega, by omega, hspec.2, ?_⟩
    rw [hflat]
    exact hmem

/-- C7: `get_unfilled_cell_rand` raises its no-unfilled-cell `IndexError`
(embedded as `none`) exactly when the grid has no empty cell, i.e. is
already complete in the sense of `is_filled`; otherwise it returns a
coordinate taken from the list of empty cells, whose value in the grid is 0.
The function only reads the grid, so the grid is not modified. -/
theorem get_unfilled_cell_rand_correct (r : Nat) (b : Board) :
    (getUnfilledCellRand r b = none ↔ isFilled b = true) ∧
    ∀ x y, getUnfilledCellRand r b = some (x, y) →
      cellGet b x y = 0 ∧ 9 * x + y ∈ zeroIndices b :=
  ⟨getUnfilledCellRand_eq_none_iff, fun _ _ h =>
    ⟨(getUnfilledCellRand_some_spec h).2.2.1,
     (getUnfilledCellRand_some_spec h).2.2.2⟩⟩

/-- Witness for C7 at a concrete input: on the empty board the draw 0 picks
cell (0, 0), which is indeed empty. -/
theorem get_unfilled_cell_rand_correct_witness :
    getUnfilledCellRand 0 zeroBoard = some (0, 0) ∧
    cellGet zeroBoard 0 0 = 0 ∧ 9 * 0 + 0 ∈ zeroIndices zeroBoard :=
  ⟨by decide, (get_unfilled_cell_rand_correct 0 zeroBoard).2 0 0 (by decide)⟩

/-! ### The propagation pass -/

theorem propagateUpTo_succ (b : Board) (k : Nat) :
    propagateUpTo b (k + 1) =
      propagateCell (propagateUpTo b k) (k / 9) (k % 9) := by
  unfold propagateUpTo
  rw [List.range_succ, List.foldl_append]
  rfl

theorem propagateCell_eq (b : Board) (x y : Nat) :
    propagateCell b x y =
      if (constructCandidates b x y).length = 1
      then setCell b x y ((constructCandidates b x y).headD 0) else b := rfl

theorem propagateUpTo_eq_self {b : Board}
    (h : ∀ x < 9, ∀ y < 9, (constructCandidates b x y).length ≠ 1) :
    ∀ k, k ≤ 81 → propagateUpTo b k = b := by
  intro k
  induction k with
  | zero => intro _; rfl
  | succ n ih =>
    intro hk
    rw [propagateUpTo_succ, ih (by omega)]
    unfold propagateCell
    rw [if_neg (h (n / 9) (by omega) (n % 9) (by omega))]

/-- C5: on a grid in which no cell (in the sense of the source, which scans
all 81 cells) has a candidate set with exactly one member, one propagation
pass changes nothing, hence running `propagate_constraint` twice yields the
same grid as running it once. -/
theorem propagate_constraint_idempotent (b : Board)
    (h : ∀ x < 9, ∀ y < 9, (constructCandidates b x y).length ≠ 1) :
    propagateConstraint (propagateConstraint b) = propagateConstraint b := by
  have hb : propagateConstraint b = b := propagateUpTo_eq_self h 81 le_rfl
  rw [hb]
  exact hb

/-- Witness for C5: the empty grid has nine candidates at every cell, so the
hypothesis holds and propagation is idempotent there. -/
theorem propagate_constraint_idempotent_witness :
    (∀ x < 9, ∀ y < 9, (constructCandidates zeroBoard x y).length ≠ 1) ∧
    propagateConstraint (propagateConstraint zeroBoard) =
      propagateConstraint zeroBoard :=
  ⟨by decide, propagate_constraint_idempotent zeroBoard (by decide)⟩

set_option maxRecDepth 40000 in
/-- C4 counterexample: on the grid whose first row is 1..8 followed by an
empty cell (all other cells empty), cell (0, 0) is filled with 1 when the
row-major scan visits it first, its candidate set at that moment is the
singleton {9}, and the pass overwrites it: in the result the cell holds 9,
not its old value.  So `propagate_constraint` does change cells that are
filled when visited. -/
theorem propagate_constraint_overwrites_filled_cell :
    cellGet [1, 2, 3, 4, 5, 6, 7, 8, 0] 0 0 = 1 ∧
    constructCandidates [1, 2, 3, 4, 5, 6, 7, 8, 0] 0 0 = [9] ∧
    cellGet (propagateConstraint [1, 2, 3, 4, 5, 6, 7, 8, 0]) 0 0 = 9 := by
  refine ⟨rfl, by decide, by decide⟩

/-- C4 (amended): the row-major scan of `propagate_constraint` treats every
cell, empty or filled, uniformly: writing the grid state after the first `k`
scan steps as `propagateUpTo b k`, the final value of the k-th visited cell
is the sole member of its candidate set at visit time when that set is a
singleton, and otherwise the value the cell had at visit time.  (An empty
cell that is filled by the pass is exactly the singleton case; but a filled
cell may be overwritten the same way, so "changes only empty cells" is too
strong.) -/
theorem propagate_constraint_scan (b : Board) (k : Nat) (hk : k < 81) :
    cellGet (propagateConstraint b) (k / 9) (k % 9) =
      if (constructCandidates (propagateUpTo b k) (k / 9) (k % 9)).length = 1
      then (constructCandidates (propagateUpTo b k) (k / 9) (k % 9)).headD 0
      else cellGet (propagateUpTo b k) (k / 9) (k % 9) := by
  have hstep : cellGet (propagateUpTo b (k + 1)) (k / 9) (k % 9) =
      if (constructCandidates (propagateUpTo b k) (k / 9) (k % 9)).length = 1
      then (constructCandidates (propagateUpTo b k) (k / 9) (k % 9)).headD 0
      else cellGet (propagateUpTo b k) (k / 9) (k % 9) := by
    rw [propagateUpTo_succ, propagateCell_eq]
    split
    · rw [cellGet_setCell_eq _ (by omega) (by omega)]
    · rfl
  have hstable : ∀ m, k + 1 ≤ m → m ≤ 81 →
      cellGet (propagateUpTo b m) (k / 9) (k % 9) =
        cellGet (propagateUpTo b (k + 1)) (k / 9) (k % 9) := by
    intro m
    induction m with
    | zero => intro h1 _; omega
    | succ n ih =>
      intro h1 h2
      rcases Nat.eq_or_lt_of_le h1 with he | hlt
      · rw [he]
      · have hne : ((k : Nat) / 9, k % 9) ≠ (n / 9, n % 9) := by
          intro hp
          rw [Prod.mk.injEq] at hp
          omega
        rw [propagateUpTo_succ, propagateCell_eq]
        split
        · rw [cellGet_setCell_ne _ (by omega) (by omega) hne]
          exact ih (by omega) (by omega)
        · exact ih (by omega) (by omega)
  calc cellGet (propagateConstraint b) (k / 9) (k % 9)
      = cellGet (propagateUpTo b (k + 1)) (k / 9) (k % 9) :=
        hstable 81 (by omega) (by omega)
    _ = _ := hstep

/-- Witness for C4's amended statement at the counterexample grid and k = 0. -/
theorem propagate_constraint_scan_witness :
    cellGet (propagateConstraint [1, 2, 3, 4, 5, 6, 7, 8, 0]) (0 / 9) (0 % 9) =
      if (constructCandidates (propagateUpTo [1, 2, 3, 4, 5, 6, 7, 8, 0] 0)
            (0 / 9) (0 % 9)).length = 1
      then (constructCandidates (propagateUpTo [1, 2, 3, 4, 5, 6, 7, 8, 0] 0)
            (0 / 9) (0 % 9)).headD 0
      else cellGet (propagateUpTo [1, 2, 3, 4, 5, 6, 7, 8, 0] 0) (0 / 9) (0 % 9) :=
  propagate_constraint_scan [1, 2, 3, 4, 5, 6, 7, 8, 0] 0 (by omega)

/-! ### Candidate-set monotonicity -/

theorem mem_vals_of_update {b : Board} {x y : Nat} (hx : x < 9) (hy : y < 9)
    (v : Nat) {u w a : Nat} (hu : u < 9) (hw : w < 9) (ha : a ≠ 0)
    (hcell : cellGet b u w = a) (hzero : cellGet b x y = 0) :
    cellGet (setCell b x y v) u w = a := by
  by_cases hc : (u, w) = (x, y)
  · rw [Prod.mk.injEq] at hc
    obtain ⟨rfl, rfl⟩ := hc
    exact absurd (hzero ▸ hcell) (Ne.symm ha)
  · rw [cellGet_setCell_ne _ hy hw hc]
    exact hcell

theorem mem_vals_of_clear {b : Board} {x y : Nat} (hy : y < 9)
    {u w a : Nat} (hu : u < 9) (hw : w < 9) (ha : a ≠ 0)
    (hcell : cellGet (setCell b x y 0) u w = a) : cellGet b u w = a := by
  by_cases hc : (u, w) = (x, y)
  · rw [Prod.mk.injEq] at hc
    obtain ⟨rfl, rfl⟩ := hc
    rw [cellGet_setCell_eq _ hu hw] at hcell
    exact absurd hcell.symm ha
  · rwa [cellGet_setCell_ne _ hy hw hc] at hcell

/-- C8: candidate-set monotonicity of `construct_candidates`.  Filling an
empty cell `(x, y)` with a value in {1..9} never enlarges the candidate set
of any other cell `(x', y')`, and clearing a filled cell never shrinks it.
The two directions are stated over two boards so that both hypotheses are
satisfiable together. -/
theorem construct_candidates_monotone (b1 b2 : Board) (x y x' y' v : Nat)
    (hx : x < 9) (hy : y < 9) (hx' : x' < 9) (hy' : y' < 9)
    (hne : (x', y') ≠ (x, y)) (hzero : cellGet b1 x y = 0)
    (hv1 : 1 ≤ v) (hv9 : v ≤ 9) (hfill : cellGet b2 x y ≠ 0) :
    (∀ a ∈ constructCandidates (setCell b1 x y v) x' y',
       a ∈ constructCandidates b1 x' y') ∧
    (∀ a ∈ constructCandidates b2 x' y',
       a ∈ constructCandidates (setCell b2 x y 0) x' y') := by
  constructor
  · intro a ha
    rw [mem_constructCandidates] at ha ⊢
    obtain ⟨hrange, hcol, hrow, hblk⟩ := ha
    have ha0 : a ≠ 0 := by omega
    refine ⟨hrange, ?_, ?_, ?_⟩
    · intro hmem
      apply hcol
      rw [mem_colVals] at hmem ⊢
      obtain ⟨u, hu, hval⟩ := hmem
      exact ⟨u, hu, mem_vals_of_update hx hy v hu hy' ha0 hval hzero⟩
    · intro hmem
      apply hrow
      rw [mem_rowVals] at hmem ⊢
      obtain ⟨w, hw, hval⟩ := hmem
      exact ⟨w, hw, mem_vals_of_update hx hy v hx' hw ha0 hval hzero⟩
    · intro hmem
      apply hblk
      rw [mem_blockVals] at hmem ⊢
      obtain ⟨u, w, hu, hw, hb, hval⟩ := hmem
      exact ⟨u, w, hu, hw, hb, mem_vals_of_update hx hy v hu hw ha0 hval hzero⟩
  · intro a ha
    rw [mem_constructCandidates] at ha ⊢
    obtain ⟨hrange, hcol, hrow, hblk⟩ := ha
    have ha0 : a ≠ 0 := by omega
    refine ⟨hrange, ?_, ?_, ?_⟩
    · intro hmem
      apply hcol
      rw [mem_colVals] at hmem ⊢
      obtain ⟨u, hu, hval⟩ := hmem
      exact ⟨u, hu, mem_vals_of_clear hy hu hy' ha0 hval⟩
    · intro hmem
      apply hrow
      rw [mem_rowVals] at hmem ⊢
      obtain ⟨w, hw, hval⟩ := hmem
      exact ⟨w, hw, mem_vals_of_clear hy hx' hw ha0 hval⟩
    · intro hmem
      apply hblk
      rw [mem_blockVals] at hmem ⊢
      obtain ⟨u, w, hu, hw, hb, hval⟩ := hmem
      exact ⟨u, w, hu, hw, hb, mem_vals_of_clear hy hu hw ha0 hval⟩

/-- Witness for C8: filling (0, 0) of the empty grid with 5 keeps 9 a
candidate of (0, 1); clearing cell (0, 0) of the grid holding a single 1
there keeps 2 a candidate of (0, 1).  All hypotheses are discharged at these
concrete inputs. -/
theorem construct_candidates_monotone_witness :
    9 ∈ constructCandidates zeroBoard 0 1 ∧
    2 ∈ constructCandidates (setCell [1] 0 0 0) 0 1 :=
  ⟨(construct_candidates_monotone zeroBoard [1] 0 0 0 1 5 (by omega) (by omega)
      (by omega) (by omega) (by decide) (by decide) (by omega) (by omega)
      (by decide)).1 9 (by decide),
   (construct_candidates_monotone zeroBoard [1] 0 0 0 1 5 (by omega) (by omega)
      (by omega) (by omega) (by decide) (by decide) (by omega) (by omega)
      (by decide)).2 2 (by decide)⟩

/-! ### Consistency is preserved by candidate assignment and propagation -/

theorem candidate_not_in_groups {b : Board} {x y v : Nat}
    (hv : v ∈ constructCandidates b x y) :
    (1 ≤ v ∧ v ≤ 9) ∧ (∀ u < 9, cellGet b u y ≠ v) ∧
    (∀ w < 9, cellGet b x w ≠ v) ∧
    (∀ u < 9, ∀ w < 9, BLOCK_ARRAY u w = BLOCK_ARRAY x y →
      cellGet b u w ≠ v) := by
  rw [mem_constructCandidates] at hv
  obtain ⟨hr, hcol, hrow, hblk⟩ := hv
  refine ⟨hr, ?_, ?_, ?_⟩
  · intro u hu hval
    exact hcol (mem_colVals.mpr ⟨u, hu, hval⟩)
  · intro w hw hval
    exact hrow (mem_rowVals.mpr ⟨w, hw, hval⟩)
  · intro u hu w hw hb hval
    exact hblk (mem_blockVals.mpr ⟨u, w, hu, hw, hb, hval⟩)

theorem setCell_preserves_consistent {b : Board} {x y v : Nat}
    (hx : x < 9) (hy : y < 9) (hv : v ∈ constructCandidates b x y)
    (hb : Consistent b) : Consistent (setCell b x y v) := by
  obtain ⟨⟨hv1, _⟩, hcol, hrow, hblk⟩ := candidate_not_in_groups hv
  intro x1 hx1 y1 hy1 x2 hx2 y2 hy2 hne hsg hnz
  by_cases h1 : (x1, y1) = (x, y) <;> by_cases h2 : (x2, y2) = (x, y)
  · exact absurd (h1.trans h2.symm) hne
  · rw [Prod.mk.injEq] at h1
    have hval1 : cellGet (setCell b x y v) x1 y1 = v := by
      rw [h1.1, h1.2]; exact cellGet_setCell_eq b hx hy v
    have hval2 : cellGet (setCell b x y v) x2 y2 = cellGet b x2 y2 :=
      cellGet_setCell_ne b hy hy2 h2 v
    rw [hval1, hval2]
    have hsg' : SameGroup x y x2 y2 := by rw [← h1.1, ← h1.2]; exact hsg
    rcases hsg' with he | he | he
    · intro hcon; exact hrow y2 hy2 (by rw [he]; exact hcon.symm)
    · intro hcon; exact hcol x2 hx2 (by rw [he]; exact hcon.symm)
    · intro hcon; exact hblk x2 hx2 y2 hy2 he.symm hcon.symm
  · rw [Prod.mk.injEq] at h2
    have hval1 : cellGet (setCell b x y v) x1 y1 = cellGet b x1 y1 :=
      cellGet_setCell_ne b hy hy1 h1 v
    have hval2 : cellGet (setCell b x y v) x2 y2 = v := by
      rw [h2.1, h2.2]; exact cellGet_setCell_eq b hx hy v
    rw [hval1, hval2]
    have hsg' : SameGroup x1 y1 x y := by rw [← h2.1, ← h2.2]; exact hsg
    rcases hsg' with he | he | he
    · intro hcon; exact hrow y1 hy1 (by rw [← he]; exact hcon)
    · intro hcon; exact hcol x1 hx1 (by rw [← he]; exact hcon)
    · intro hcon; exact hblk x1 hx1 y1 hy1 he hcon
  · rw [cellGet_setCell_ne b hy hy1 h1 v, cellGet_setCell_ne b hy hy2 h2 v]
    rw [cellGet_setCell_ne b hy hy1 h1 v] at hnz
    exact hb x1 hx1 y1 hy1 x2 hx2 y2 hy2 hne hsg hnz

theorem setCell_preserves_wellFormed (b : Board) (x y v : Nat)
    (hy : y < 9) (hv : v ≤ 9) (hb : WellFormed b) :
    WellFormed (setCell b x y v) := by
  intro u hu w hw
  by_cases hc : (u, w) = (x, y)
  · rw [Prod.mk.injEq] at hc
    rw [hc.1, hc.2, cellGet_setCell_eq b (hc.1 ▸ hu) (hc.2 ▸ hw)]
    exact hv
  · rw [cellGet_setCell_ne b hy hw hc]
    exact hb u hu w hw

theorem headD_mem_of_length_one {l : List Nat} (h : l.length = 1) :
    l.headD 0 ∈ l := by
  cases l with
  | nil => simp at h
  | cons a t => simp

theorem propagateUpTo_preserves {b : Board} (hc : Consistent b)
    (hw : WellFormed b) :
    ∀ k, k ≤ 81 →
      Consistent (propagateUpTo b k) ∧ WellFormed (propagateUpTo b k) := by
  intro k
  induction k with
  | zero => intro _; exact ⟨hc, hw⟩
  | succ n ih =>
    intro hk
    have ihn := ih (by omega)
    rw [propagateUpTo_succ, propagateCell_eq]
    split
    next hlen =>
      have hmem := headD_mem_of_length_one hlen
      have hval9 := (mem_constructCandidates.mp hmem).1.2
      exact ⟨setCell_preserves_consistent (by omega) (by omega) hmem ihn.1,
             setCell_preserves_wellFormed _ _ _ _ (by omega) hval9 ihn.2⟩
    next => exact ihn

theorem expandFrames_preserves {b : Board} {x y : Nat} (hx : x < 9)
    (hy : y < 9) (hc : Consistent b) (hw : WellFormed b) :
    ∀ g ∈ expandFrames b x y, Consistent g ∧ WellFormed g := by
  intro g hg
  unfold expandFrames at hg
  rw [List.mem_reverse, List.mem_map] at hg
  obtain ⟨v, hv, rfl⟩ := hg
  have hc' := setCell_preserves_consistent hx hy hv hc
  have hw' := setCell_preserves_wellFormed b x y v hy
    (mem_constructCandidates.mp hv).1.2 hw
  exact propagateUpTo_preserves hc' hw' 81 le_rfl

theorem backtrackIter_found_inv :
    ∀ fuel (oracle : Nat → Nat) stack r,
      (∀ g ∈ stack, Consistent g ∧ WellFormed g) →
      backtrackIter oracle fuel stack = some (.found r) →
      isFilled r = true ∧ Consistent r ∧ WellFormed r := by
  intro fuel
  induction fuel with
  | zero => intro oracle stack r _ h; simp [backtrackIter] at h
  | succ n ih =>
    intro oracle stack r hinv h
    cases stack with
    | nil => simp [backtrackIter] at h
    | cons b rest =>
      rw [backtrackIter] at h
      by_cases hf : isFilled b = true
      · rw [if_pos hf] at h
        simp only [Option.some.injEq, BTResult.found.injEq] at h
        subst h
        exact ⟨hf, (hinv b (by simp)).1, (hinv b (by simp)).2⟩
      · rw [if_neg hf] at h
        cases hcell : getUnfilledCellRand (oracle 0) b with
        | none => rw [hcell] at h; simp at h
        | some xy =>
          obtain ⟨x, y⟩ := xy
          rw [hcell] at h
          obtain ⟨hx, hy, _, _⟩ := getUnfilledCellRand_some_spec hcell
          refine ih _ _ r ?_ h
          intro g hg
          rw [List.mem_append] at hg
          rcases hg with hg | hg
          · exact expandFrames_preserves hx hy (hinv b (by simp)).1
              (hinv b (by simp)).2 g hg
          · exact hinv g (by simp [hg])

/-! ### A filled consistent well-formed grid is a valid solution -/

theorem isFilled_all_nonzero {b : Board} (h : isFilled b = true) :
    ∀ x < 9, ∀ y < 9, cellGet b x y ≠ 0 := by
  rw [isFilled_iff] at h
  have hsub : (List.range 81).filter
      (fun i => cellGet b (i / 9) (i % 9) != 0) = List.range 81 :=
    List.Sublist.eq_of_length (List.filter_sublist _)
      (by simpa [countFilled] using h)
  have hall := List.filter_eq_self.mp hsub
  intro x hx y hy hzero
  have hp := hall (9 * x + y) (by rw [List.mem_range]; omega)
  have hx9 : (9 * x + y) / 9 = x := by omega
  have hy9 : (9 * x + y) % 9 = y := by omega
  rw [hx9, hy9] at hp
  simp [hzero] at hp

theorem count_eq_one_of_nodup_nine {l : List Nat} (hlen : l.length = 9)
    (hnd : l.Nodup) (hmem : ∀ a ∈ l, 1 ≤ a ∧ a ≤ 9) :
    ∀ v, 1 ≤ v → v ≤ 9 → l.count v = 1 := by
  intro v hv1 hv9
  have hsub : l.toFinset ⊆ Finset.Icc 1 9 := by
    intro a ha
    rw [List.mem_toFinset] at ha
    have := hmem a ha
    rw [Finset.mem_Icc]; omega
  have hcard : l.toFinset = Finset.Icc 1 9 := by
    apply Finset.eq_of_subset_of_card_le hsub
    rw [List.toFinset_card_of_nodup hnd, hlen, Nat.card_Icc]
  have hvmem : v ∈ l := by
    rw [← List.mem_toFinset, hcard, Finset.mem_Icc]; omega
  have h1 : 0 < l.count v := List.count_pos_iff.mpr hvmem
  have h2 : l.count v ≤ 1 := List.nodup_iff_count_le_one.mp hnd v
  omega

theorem rowVals_nodup {b : Board} {x : Nat} (hx : x < 9) (hc : Consistent b)
    (hf : isFilled b = true) : (rowVals b x).Nodup := by
  have hnz := isFilled_all_nonzero hf
  unfold rowVals
  apply List.Nodup.map_on ?_ (List.nodup_range 9)
  intro y1 h1 y2 h2 heq
  rw [List.mem_range] at h1 h2
  by_contra hne
  exact hc x hx y1 h1 x hx y2 h2 (by simp [Prod.mk.injEq, hne])
    (Or.inl rfl) (hnz x hx y1 h1) heq

theorem colVals_nodup {b : Board} {y : Nat} (hy : y < 9) (hc : Consistent b)
    (hf : isFilled b = true) : (colVals b y).Nodup := by
  have hnz := isFilled_all_nonzero hf
  unfold colVals
  apply List.Nodup.map_on ?_ (List.nodup_range 9)
  intro x1 h1 x2 h2 heq
  rw [List.mem_range] at h1 h2
  by_contra hne
  exact hc x1 h1 y hy x2 h2 y hy (by simp [Prod.mk.injEq, hne])
    (Or.inr (Or.inl rfl)) (hnz x1 h1 y hy) heq

theorem blockVals_nodup {b : Board} {x y : Nat} (hc : Consistent b)
    (hf : isFilled b = true) : (blockVals b x y).Nodup := by
  have hnz := isFilled_all_nonzero hf
  unfold blockVals
  apply List.Nodup.map_on ?_ (List.Nodup.filter _ (List.nodup_range 81))
  intro i1 h1 i2 h2 heq
  rw [List.mem_filter, List.mem_range] at h1 h2
  by_contra hne
  have e1 := h1.2
  have e2 := h2.2
  rw [beq_iff_eq] at e1 e2
  have hblk : BLOCK_ARRAY (i1 / 9) (i1 % 9) = BLOCK_ARRAY (i2 / 9) (i2 % 9) :=
    by rw [e1, e2]
  have h81a := h1.1
  have h81b := h2.1
  have hpair : ((i1 / 9 : Nat), i1 % 9) ≠ (i2 / 9, i2 % 9) := by
    intro hp
    rw [Prod.mk.injEq] at hp
    exact hne (by omega)
  exact hc (i1 / 9) (by omega) (i1 % 9) (by omega) (i2 / 9) (by omega)
    (i2 % 9) (by omega) hpair (Or.inr (Or.inr hblk))
    (hnz _ (by omega) _ (by omega)) heq

theorem blockVals_length {b : Board} {x y : Nat} (hx : x < 9) (hy : y < 9) :
    (blockVals b x y).length = 9 := by
  unfold blockVals
  rw [List.length_map]
  have hg : BLOCK_ARRAY x y < 9 := by unfold BLOCK_ARRAY; omega
  revert hg
  generalize BLOCK_ARRAY x y = g
  intro hg
  interval_cases g <;> decide

theorem filled_counts {b : Board} (hf : isFilled b = true) (hc : Consistent b)
    (hw : WellFormed b) :
    (∀ x < 9, ∀ v, 1 ≤ v → v ≤ 9 → rowCount b x v = 1) ∧
    (∀ y < 9, ∀ v, 1 ≤ v → v ≤ 9 → colCount b y v = 1) ∧
    (∀ x < 9, ∀ y < 9, ∀ v, 1 ≤ v → v ≤ 9 → blockCount b x y v = 1) := by
  have hnz := isFilled_all_nonzero hf
  refine ⟨?_, ?_, ?_⟩
  · intro x hx v hv1 hv9
    apply count_eq_one_of_nodup_nine (by simp [rowVals])
      (rowVals_nodup hx hc hf) ?_ v hv1 hv9
    intro a ha
    rw [mem_rowVals] at ha
    obtain ⟨w, hw9, rfl⟩ := ha
    exact ⟨by have := hnz x hx w hw9; omega, hw x hx w hw9⟩
  · intro y hy v hv1 hv9
    apply count_eq_one_of_nodup_nine (by simp [colVals])
      (colVals_nodup hy hc hf) ?_ v hv1 hv9
    intro a ha
    rw [mem_colVals] at ha
    obtain ⟨u, hu9, rfl⟩ := ha
    exact ⟨by have := hnz u hu9 y hy; omega, hw u hu9 y hy⟩
  · intro x hx y hy v hv1 hv9
    apply count_eq_one_of_nodup_nine (blockVals_length hx hy)
      (blockVals_nodup hc hf) ?_ v hv1 hv9
    intro a ha
    rw [mem_blockVals] at ha
    obtain ⟨u, w, hu9, hw9, _, rfl⟩ := ha
    exact ⟨by have := hnz u hu9 w hw9; omega, hw u hu9 w hw9⟩

/-- C1 counterexample: the claim quantifies over every starting grid, but
`backtrack_iter` returns the first popped grid as soon as `is_filled` holds,
with no validity check.  Started on the all-ones grid it immediately returns
that grid, whose first row does not contain the value 2 at all, let alone
exactly once. -/
theorem backtrack_iter_valid_counterexample :
    backtrackIter oracle0 1 [onesBoard] = some (.found onesBoard) ∧
    isFilled onesBoard = true ∧ rowCount onesBoard 0 2 = 0 := by
  refine ⟨by decide, by decide, by decide⟩

/-- C1 (amended): for every well-formed (entries at most 9) and consistent
(no group repeats a nonzero value) starting grid, any grid returned by
`backtrack_iter` is completely filled and every row, every column and every
3x3 block contains each value of {1..9} exactly once.  (The restriction to
well-formed consistent starting grids is forced by the counterexample: the
search trusts `is_filled` alone when it returns.) -/
theorem backtrack_iter_valid (oracle : Nat → Nat) (fuel : Nat)
    (board r : Board) (hc : Consistent board) (hw : WellFormed board)
    (hr : backtrackIter oracle fuel [board] = some (.found r)) :
    isFilled r = true ∧
    (∀ x < 9, ∀ v, 1 ≤ v → v ≤ 9 → rowCount r x v = 1) ∧
    (∀ y < 9, ∀ v, 1 ≤ v → v ≤ 9 → colCount r y v = 1) ∧
    (∀ x < 9, ∀ y < 9, ∀ v, 1 ≤ v → v ≤ 9 → blockCount r x y v = 1) := by
  have hinv := backtrackIter_found_inv fuel oracle [board] r
    (by intro g hg; rw [List.mem_singleton] at hg; rw [hg]; exact ⟨hc, hw⟩) hr
  obtain ⟨hf, hcr, hwr⟩ := hinv
  obtain ⟨h1, h2, h3⟩ := filled_counts hf hcr hwr
  exact ⟨hf, h1, h2, h3⟩

/-- Witness for C1's amended statement: the starting grid `solA` is
consistent and well-formed, the run returns it at once, and the conclusion
holds for it. -/
theorem backtrack_iter_valid_witness :
    Consistent solA ∧ WellFormed solA ∧
    (isFilled solA = true ∧
     (∀ x < 9, ∀ v, 1 ≤ v → v ≤ 9 → rowCount solA x v = 1) ∧
     (∀ y < 9, ∀ v, 1 ≤ v → v ≤ 9 → colCount solA y v = 1) ∧
     (∀ x < 9, ∀ y < 9, ∀ v, 1 ≤ v → v ≤ 9 → blockCount solA x y v = 1)) :=
  ⟨by decide, by decide,
   backtrack_iter_valid oracle0 1 solA solA (by decide) (by decide) (by decide)⟩

/-! ### A dead-end grid makes `backtrack_iter` raise (C10) -/

theorem deadEnd_getUnfilled (r : Nat) :
    getUnfilledCellRand r deadEndBoard = some (0, 0) := by
  have hz : zeroIndices deadEndBoard = [0] := by decide
  unfold getUnfilledCellRand
  rw [hz]
  simp [Nat.mod_one]

theorem deadEnd_expand : expandFrames deadEndBoard 0 0 = [] := by decide

theorem deadEnd_step (oracle : Nat → Nat) (f : Nat) :
    backtrackIter oracle (f + 1) [deadEndBoard] =
      backtrackIter (fun n => oracle (n + 1)) f [] := by
  rw [backtrackIter, if_neg (by decide : ¬isFilled deadEndBoard = true),
    deadEnd_getUnfilled]
  show backtrackIter (fun n => oracle (n + 1)) f
    (expandFrames deadEndBoard 0 0 ++ []) = _
  rw [deadEnd_expand]
  rfl

/-- C10: on the incomplete grid `deadEndBoard`, which admits no valid
completion (its single empty cell (0, 0) has an empty candidate set), the
candidate loop of `backtrack_iter` pushes nothing, the explicit stack
empties, and the `stack.pop()` call raises an unhandled `IndexError`
(`popEmpty`): under every oracle and every amount of fuel the function
either is still running or has raised, and never returns a grid. -/
theorem backtrack_iter_dead_end :
    isFilled deadEndBoard = false ∧
    zeroIndices deadEndBoard = [0] ∧
    constructCandidates deadEndBoard 0 0 = [] ∧
    (∀ (oracle : Nat → Nat) fuel,
      backtrackIter oracle fuel [deadEndBoard] = none ∨
      backtrackIter oracle fuel [deadEndBoard] = some .popEmpty) ∧
    backtrackIter oracle0 2 [deadEndBoard] = some .popEmpty := by
  refine ⟨by decide, by decide, by decide, ?_, by decide⟩
  intro oracle fuel
  match fuel with
  | 0 => exact Or.inl rfl
  | f + 1 =>
    rw [deadEnd_step]
    match f with
    | 0 => exact Or.inl rfl
    | g + 1 => exact Or.inr rfl

/-! ### Termination of the backtracking loop (C6) -/

theorem countP_flip_one {p q : Nat → Bool} (i0 : Nat) :
    ∀ l : List Nat, l.Nodup → i0 ∈ l → p i0 = false → q i0 = true →
      (∀ j ∈ l, j ≠ i0 → p j = q j) →
      (l.filter q).length = (l.filter p).length + 1 := by
  intro l
  induction l with
  | nil => intro _ h; simp at h
  | cons a t ih =>
    intro hnd hmem hp hq hagree
    rw [List.nodup_cons] at hnd
    rcases List.mem_cons.mp hmem with rfl | hmem'
    · have ht : t.filter p = t.filter q := by
        apply List.filter_congr
        intro j hj
        exact hagree j (by simp [hj]) (fun he => hnd.1 (he ▸ hj))
      rw [List.filter_cons, List.filter_cons, hp, hq]
      simp [ht]
    · have ha : a ≠ i0 := fun he => hnd.1 (he ▸ hmem')
      have hpa := hagree a (by simp) ha
      have ht := ih hnd.2 hmem' hp hq
        (fun j hj hne => hagree j (by simp [hj]) hne)
      rw [List.filter_cons, List.filter_cons, ← hpa]
      cases hb : p a <;> simp [hb, ht]

theorem countFilled_setCell {b : Board} {x y v : Nat} (hx : x < 9)
    (hy : y < 9) (hb : cellGet b x y = 0) (hv : v ≠ 0) :
    countFilled (setCell b x y v) = countFilled b + 1 := by
  unfold countFilled
  apply countP_flip_one (9 * x + y) (List.range 81) (List.nodup_range 81)
    (by rw [List.mem_range]; omega)
  · have hdx : (9 * x + y) / 9 = x := by omega
    have hdy : (9 * x + y) % 9 = y := by omega
    rw [hdx, hdy, hb]
    rfl
  · have hdx : (9 * x + y) / 9 = x := by omega
    have hdy : (9 * x + y) % 9 = y := by omega
    rw [hdx, hdy, cellGet_setCell_eq b hx hy v]
    simpa using hv
  · intro j hj hne
    rw [List.mem_range] at hj
    have hpair : ((j : Nat) / 9, j % 9) ≠ (x, y) := by
      intro hp
      rw [Prod.mk.injEq] at hp
      exact hne (by omega)
    rw [cellGet_setCell_ne b hy (by omega) hpair v]

theorem propagateCell_nonzero {b : Board} {x y u w : Nat} (hx : x < 9)
    (hy : y < 9) (hw : w < 9) (h : cellGet b u w ≠ 0) :
    cellGet (propagateCell b x y) u w ≠ 0 := by
  rw [propagateCell_eq]
  split
  next hlen =>
    by_cases hc : (u, w) = (x, y)
    · rw [Prod.mk.injEq] at hc
      rw [hc.1, hc.2, cellGet_setCell_eq b hx hy]
      have := (mem_constructCandidates.mp (headD_mem_of_length_one hlen)).1.1
      omega
    · rwa [cellGet_setCell_ne b hy hw hc]
  next => exact h

theorem propagateUpTo_nonzero {b : Board} :
    ∀ k, k ≤ 81 → ∀ u, ∀ w < 9, cellGet b u w ≠ 0 →
      cellGet (propagateUpTo b k) u w ≠ 0 := by
  intro k
  induction k with
  | zero => intro _ u w hw h; exact h
  | succ n ihb =>
    intro hk u w hw h
    have ih := ihb (by omega)
    rw [propagateUpTo_succ, propagateCell_eq]
    split
    next hlen =>
      by_cases hc : (u, w) = ((n : Nat) / 9, n % 9)
      · rw [Prod.mk.injEq] at hc
        rw [hc.1, hc.2, cellGet_setCell_eq _ (by omega) (by omega)]
        have := (mem_constructCandidates.mp
          (headD_mem_of_length_one hlen)).1.1
        omega
      · rw [cellGet_setCell_ne _ (by omega) hw hc]
        exact ih u w hw h
    next => exact ih u w hw h

theorem countFilled_mono_pointwise {b c : Board}
    (h : ∀ u < 9, ∀ w < 9, cellGet b u w ≠ 0 → cellGet c u w ≠ 0) :
    countFilled b ≤ countFilled c := by
  unfold countFilled
  rw [← List.countP_eq_length_filter, ← List.countP_eq_length_filter]
  apply List.countP_mono_left
  intro i hi hp
  rw [List.mem_range] at hi
  have := h (i / 9) (by omega) (i % 9) (by omega) (by simpa using hp)
  simpa using this

theorem sum_le_of_bound (l : List Nat) (n : Nat) (h : ∀ x ∈ l, x ≤ n) :
    l.sum ≤ l.length * n := by
  induction l with
  | nil => simp
  | cons a t ih =>
    simp only [List.sum_cons, List.length_cons]
    have ha := h a (by simp)
    have ht := ih (fun x hx => h x (by simp [hx]))
    calc a + t.sum ≤ n + t.length * n := by omega
    _ = (t.length + 1) * n := by ring

theorem expandFrames_length_le (b : Board) (x y : Nat) :
    (expandFrames b x y).length ≤ 9 := by
  unfold expandFrames
  rw [List.length_reverse, List.length_map]
  calc (constructCandidates b x y).length ≤ COMPLETE_ROW.length :=
    List.length_filter_le _ _
  _ = 9 := rfl

theorem expandFrames_countFilled {b : Board} {x y : Nat} (hx : x < 9)
    (hy : y < 9) (hzero : cellGet b x y = 0) :
    ∀ c ∈ expandFrames b x y, countFilled b + 1 ≤ countFilled c := by
  intro c hc
  unfold expandFrames at hc
  rw [List.mem_reverse, List.mem_map] at hc
  obtain ⟨v, hv, rfl⟩ := hc
  have hv1 := (mem_constructCandidates.mp hv).1.1
  have hset : countFilled (setCell b x y v) = countFilled b + 1 :=
    countFilled_setCell hx hy hzero (by omega)
  have hmono : countFilled (setCell b x y v) ≤
      countFilled (propagateConstraint (setCell b x y v)) :=
    countFilled_mono_pointwise
      (fun u _ w hw h => propagateUpTo_nonzero 81 (by omega) u w hw h)
  omega

theorem getUnfilledCellRand_of_not_filled (r : Nat) {b : Board}
    (hf : isFilled b = false) :
    ∃ x y, getUnfilledCellRand r b = some (x, y) := by
  have hsum := countFilled_add_zeroIndices b
  have hlen : (zeroIndices b).length ≠ 0 := by
    intro hz
    have h81 : countFilled b = 81 := by omega
    have htrue := isFilled_iff.mpr h81
    simp [htrue] at hf
  unfold getUnfilledCellRand
  rw [if_neg hlen]
  exact ⟨_, _, rfl⟩

theorem backtrackIter_terminates_aux :
    ∀ fuel (oracle : Nat → Nat) stack, stackMeasure stack < fuel →
      ∃ res, backtrackIter oracle fuel stack = some res ∧
        resultFilled res = true := by
  intro fuel
  induction fuel with
  | zero => intro _ _ hm; omega
  | succ n ih =>
    intro oracle stack hm
    cases stack with
    | nil => exact ⟨.popEmpty, rfl, rfl⟩
    | cons b rest =>
      by_cases hf : isFilled b = true
      · refine ⟨.found b, ?_, by simp [resultFilled, hf]⟩
        rw [backtrackIter, if_pos hf]
      · obtain ⟨x, y, hxy⟩ := getUnfilledCellRand_of_not_filled
          (r := oracle 0) (Bool.not_eq_true _ ▸ hf)
        obtain ⟨hx, hy, hzero, _⟩ := getUnfilledCellRand_some_spec hxy
        have hcb : countFilled b < 81 := by
          have hle := countFilled_le b
          rcases Nat.lt_or_ge (countFilled b) 81 with hlt | hge
          · exact hlt
          · exact absurd (isFilled_iff.mpr (by omega)) hf
        have hexp : ∀ c ∈ expandFrames b x y,
            frameMeasure c ≤ 10 ^ (81 - countFilled b - 1) := by
          intro c hc
          have h1 := expandFrames_countFilled hx hy hzero c hc
          have h2 := countFilled_le c
          unfold frameMeasure
          apply Nat.pow_le_pow_right (by omega)
          omega
        have hsum : stackMeasure (expandFrames b x y) ≤
            9 * 10 ^ (81 - countFilled b - 1) := by
          unfold stackMeasure
          have := sum_le_of_bound ((expandFrames b x y).map frameMeasure)
            (10 ^ (81 - countFilled b - 1)) ?_
          · calc ((expandFrames b x y).map frameMeasure).sum ≤
                ((expandFrames b x y).map frameMeasure).length *
                  10 ^ (81 - countFilled b - 1) := this
            _ ≤ 9 * 10 ^ (81 - countFilled b - 1) := by
                rw [List.length_map]
                exact Nat.mul_le_mul_right _ (expandFrames_length_le b x y)
          · intro m hmem
            rw [List.mem_map] at hmem
            obtain ⟨c, hc, rfl⟩ := hmem
            exact hexp c hc
        have hpow : 9 * 10 ^ (81 - countFilled b - 1) <
            10 ^ (81 - countFilled b) := by
          have he : 81 - countFilled b = (81 - countFilled b - 1) + 1 := by
            omega
          calc 9 * 10 ^ (81 - countFilled b - 1)
              < 10 * 10 ^ (81 - countFilled b - 1) := by
                have hpos : 0 < 10 ^ (81 - countFilled b - 1) :=
                  Nat.pos_pow_of_pos _ (by omega)
                omega
          _ = 10 ^ ((81 - countFilled b - 1) + 1) := by
                rw [pow_succ]; ring
          _ = 10 ^ (81 - countFilled b) := by rw [← he]
        have hcons : stackMeasure (b :: rest) =
            frameMeasure b + stackMeasure rest := by
          unfold stackMeasure
          rw [List.map_cons, List.sum_cons]
        have hm' : frameMeasure b + stackMeasure rest < n + 1 := by
          rw [← hcons]; exact hm
        have hframe : stackMeasure (expandFrames b x y) < frameMeasure b := by
          unfold frameMeasure
          omega
        have hlt : stackMeasure (expandFrames b x y ++ rest) < n := by
          have hsplit : stackMeasure (expandFrames b x y ++ rest) =
              stackMeasure (expandFrames b x y) + stackMeasure rest := by
            unfold stackMeasure
            rw [List.map_append, List.sum_append]
          omega
        obtain ⟨res, hres, hfill⟩ := ih (fun m => oracle (m + 1)) _ hlt
        refine ⟨res, ?_, hfill⟩
        rw [backtrackIter, if_neg hf, hxy]
        exact hres

/-- C6 (amended): for every starting grid and every oracle, the loop of
`backtrack_iter` performs only finitely many iterations: some finite fuel
suffices for the run to end, and it ends either by returning a grid that
`is_filled` accepts or by an `IndexError` (an empty `stack.pop()`, or the
unreachable cell-selection error).  The original claim's stronger promise,
that a completely filled grid is always returned, is refuted by
`backtrack_iter_terminates_counterexample`: on a consistent unsolvable grid
the stack empties and the pop raises instead. -/
theorem backtrack_iter_terminates (board : Board) (oracle : Nat → Nat) :
    ∃ fuel res, backtrackIter oracle fuel [board] = some res ∧
      resultFilled res = true := by
  obtain ⟨res, h1, h2⟩ := backtrackIter_terminates_aux
    (stackMeasure [board] + 1) oracle [board] (by omega)
  exact ⟨_, res, h1, h2⟩

theorem blockedBoard_getUnfilled (r : Nat) :
    getUnfilledCellRand r blockedBoard = some (0, 1) ∨
    getUnfilledCellRand r blockedBoard = some (3, 0) := by
  have hz : zeroIndices blockedBoard = [1, 27] := by decide
  unfold getUnfilledCellRand
  rw [hz]
  have hlen : ([1, 27] : List Nat).length = 2 := rfl
  rw [hlen, if_neg (by omega)]
  have h2 : r % 2 = 0 ∨ r % 2 = 1 := by omega
  rcases h2 with h | h
  · left; rw [h]; rfl
  · right; rw [h]; rfl

theorem blockedBoard_expand1 : expandFrames blockedBoard 0 1 = [] := by decide

theorem blockedBoard_expand2 : expandFrames blockedBoard 3 0 = [] := by decide

theorem blockedBoard_step (oracle : Nat → Nat) (f : Nat) :
    backtrackIter oracle (f + 1) [blockedBoard] =
      backtrackIter (fun n => oracle (n + 1)) f [] := by
  rw [backtrackIter, if_neg (by decide : ¬isFilled blockedBoard = true)]
  rcases blockedBoard_getUnfilled (oracle 0) with h | h
  · rw [h]
    show backtrackIter (fun n => oracle (n + 1)) f
      (expandFrames blockedBoard 0 1 ++ []) = _
    rw [blockedBoard_expand1]
    rfl
  · rw [h]
    show backtrackIter (fun n => oracle (n + 1)) f
      (expandFrames blockedBoard 3 0 ++ []) = _
    rw [blockedBoard_expand2]
    rfl

/-- C6 counterexample: `blockedBoard` is a consistent, well-formed partial
grid (no group repeats a nonzero value), yet `backtrack_iter` started on it
never returns a grid: both empty cells have empty candidate sets, so the
candidate loop never pushes a frame, the stack empties, and the run ends in
the `stack.pop()` `IndexError` — under every oracle and every fuel the
outcome is still-running or `popEmpty`, never a returned grid.  This refutes
"terminates ... and returns a completely filled grid" as stated for
consistent partial starting grids. -/
theorem backtrack_iter_terminates_counterexample :
    Consistent blockedBoard ∧ WellFormed blockedBoard ∧
    isFilled blockedBoard = false ∧
    constructCandidates blockedBoard 0 1 = [] ∧
    constructCandidates blockedBoard 3 0 = [] ∧
    (∀ (oracle : Nat → Nat) fuel,
      backtrackIter oracle fuel [blockedBoard] = none ∨
      backtrackIter oracle fuel [blockedBoard] = some .popEmpty) ∧
    backtrackIter oracle0 3 [blockedBoard] = some .popEmpty := by
  refine ⟨by decide, by decide, by decide, by decide, by decide, ?_, by decide⟩
  intro oracle fuel
  match fuel with
  | 0 => exact Or.inl rfl
  | f + 1 =>
    rw [blockedBoard_step]
    match f with
    | 0 => exact Or.inl rfl
    | g + 1 => exact Or.inr rfl

/-! ### Uniqueness verification (C2) -/

theorem solutionUniqueAux_cons (oracle : Nat → Nat) (fuel : Nat) (b : Board)
    (rest solutions : List Board) :
    solutionUniqueAux oracle (fuel + 1) (b :: rest) solutions =
      if isFilled b then
        if 1 < (if boardInSolutions b solutions then solutions
                else solutions ++ [b]).length
        then some (some false)
        else solutionUniqueAux oracle fuel rest
          (if boardInSolutions b solutions then solutions
           else solutions ++ [b])
      else
        match getUnfilledCellRand (oracle 0) b with
        | none => some none
        | some (x, y) =>
          solutionUniqueAux (fun n => oracle (n + 1)) fuel
            (expandFrames b x y ++ rest) solutions := rfl

theorem collectSolutions_cons (oracle : Nat → Nat) (fuel : Nat) (b : Board)
    (rest solutions : List Board) :
    collectSolutions oracle (fuel + 1) (b :: rest) solutions =
      if isFilled b then
        collectSolutions oracle fuel rest
          (if boardInSolutions b solutions then solutions
           else solutions ++ [b])
      else
        match getUnfilledCellRand (oracle 0) b with
        | none => none
        | some (x, y) =>
          collectSolutions (fun n => oracle (n + 1)) fuel
            (expandFrames b x y ++ rest) solutions := rfl

theorem collectSolutions_length_mono :
    ∀ fuel (oracle : Nat → Nat) stack solutions res,
      collectSolutions oracle fuel stack solutions = some res →
      solutions.length ≤ res.length := by
  intro fuel
  induction fuel with
  | zero => intro o s sols res h; simp [collectSolutions] at h
  | succ n ih =>
    intro o stack sols res h
    cases stack with
    | nil =>
      rw [collectSolutions] at h
      simp only [Option.some.injEq] at h
      rw [h]
    | cons b rest =>
      rw [collectSolutions_cons] at h
      by_cases hf : isFilled b = true
      · rw [if_pos hf] at h
        have hrec := ih o rest _ res h
        by_cases hin : boardInSolutions b sols = true
        · rw [if_pos hin] at hrec; exact hrec
        · rw [if_neg hin] at hrec
          rw [List.length_append] at hrec
          simp at hrec
          omega
      · rw [if_neg hf] at h
        cases hxy : getUnfilledCellRand (o 0) b with
        | none => rw [hxy] at h; simp at h
        | some xy =>
          obtain ⟨x, y⟩ := xy
          rw [hxy] at h
          exact ih _ _ _ _ h

theorem solutionUniqueAux_matches_collect :
    ∀ fuel (oracle : Nat → Nat) stack solutions res,
      collectSolutions oracle fuel stack solutions = some res →
      solutionUniqueAux oracle fuel stack solutions =
        some (some (res.length == 1)) := by
  intro fuel
  induction fuel with
  | zero => intro o s sols res h; simp [collectSolutions] at h
  | succ n ih =>
    intro o stack sols res h
    cases stack with
    | nil =>
      rw [collectSolutions] at h
      simp only [Option.some.injEq] at h
      rw [solutionUniqueAux, h]
    | cons b rest =>
      rw [collectSolutions_cons] at h
      rw [solutionUniqueAux_cons]
      by_cases hf : isFilled b = true
      · rw [if_pos hf] at h ⊢
        by_cases hlen : 1 < (if boardInSolutions b sols then sols
            else sols ++ [b]).length
        · rw [if_pos hlen]
          have hmono := collectSolutions_length_mono n o rest _ res h
          have hne : (res.length == 1) = false := by
            have : res.length ≠ 1 := by omega
            simpa using this
          rw [hne]
        · rw [if_neg hlen]
          exact ih o rest _ res h
      · rw [if_neg hf] at h ⊢
        cases hxy : getUnfilledCellRand (o 0) b with
        | none => rw [hxy] at h; simp at h
        | some xy =>
          obtain ⟨x, y⟩ := xy
          rw [hxy] at h
          exact ih _ _ _ _ h

theorem solutionUniqueAux_mono :
    ∀ fuel (oracle : Nat → Nat) stack solutions r,
      solutionUniqueAux oracle fuel stack solutions = some r →
      solutionUniqueAux oracle (fuel + 1) stack solutions = some r := by
  intro fuel
  induction fuel with
  | zero => intro o s sols r h; simp [solutionUniqueAux] at h
  | succ n ih =>
    intro o stack sols r h
    cases stack with
    | nil => rw [solutionUniqueAux] at h ⊢; exact h
    | cons b rest =>
      rw [solutionUniqueAux_cons] at h ⊢
      by_cases hf : isFilled b = true
      · rw [if_pos hf] at h ⊢
        by_cases hlen : 1 < (if boardInSolutions b sols then sols
            else sols ++ [b]).length
        · rw [if_pos hlen] at h ⊢; exact h
        · rw [if_neg hlen] at h ⊢
          exact ih o rest _ r h
      · rw [if_neg hf] at h ⊢
        cases hxy : getUnfilledCellRand (o 0) b with
        | none => rw [hxy] at h; exact h
        | some xy =>
          obtain ⟨x, y⟩ := xy
          rw [hxy] at h
          exact ih _ _ _ _ h

theorem solutionUniqueAux_mono_le {f1 f2 : Nat} (hle : f1 ≤ f2)
    (oracle : Nat → Nat) (stack solutions : List Board) (r : Option Bool)
    (h : solutionUniqueAux oracle f1 stack solutions = some r) :
    solutionUniqueAux oracle f2 stack solutions = some r := by
  induction f2 with
  | zero =>
    have : f1 = 0 := by omega
    rw [← this]; exact h
  | succ m ih =>
    rcases Nat.eq_or_lt_of_le hle with he | hlt
    · rw [← he]; exact h
    · exact solutionUniqueAux_mono m oracle stack solutions r
        (ih (by omega))

theorem stackMeasure_cons (b : Board) (rest : List Board) :
    stackMeasure (b :: rest) = frameMeasure b + stackMeasure rest := by
  unfold stackMeasure
  rw [List.map_cons, List.sum_cons]

theorem stackMeasure_expand_lt {b : Board} (rest : List Board) {x y : Nat}
    (hx : x < 9) (hy : y < 9) (hzero : cellGet b x y = 0)
    (hnf : isFilled b = false) :
    stackMeasure (expandFrames b x y ++ rest) < stackMeasure (b :: rest) := by
  have hcb : countFilled b < 81 := by
    have hle := countFilled_le b
    rcases Nat.lt_or_ge (countFilled b) 81 with hlt | hge
    · exact hlt
    · rw [isFilled_iff.mpr (by omega)] at hnf
      simp at hnf
  have hexp : ∀ c ∈ expandFrames b x y,
      frameMeasure c ≤ 10 ^ (81 - countFilled b - 1) := by
    intro c hc
    have h1 := expandFrames_countFilled hx hy hzero c hc
    have h2 := countFilled_le c
    unfold frameMeasure
    apply Nat.pow_le_pow_right (by omega)
    omega
  have hsum : stackMeasure (expandFrames b x y) ≤
      9 * 10 ^ (81 - countFilled b - 1) := by
    unfold stackMeasure
    have hb := sum_le_of_bound ((expandFrames b x y).map frameMeasure)
      (10 ^ (81 - countFilled b - 1)) ?_
    · calc ((expandFrames b x y).map frameMeasure).sum ≤
          ((expandFrames b x y).map frameMeasure).length *
            10 ^ (81 - countFilled b - 1) := hb
      _ ≤ 9 * 10 ^ (81 - countFilled b - 1) := by
          rw [List.length_map]
          exact Nat.mul_le_mul_right _ (expandFrames_length_le b x y)
    · intro m hmem
      rw [List.mem_map] at hmem
      obtain ⟨c, hc, rfl⟩ := hmem
      exact hexp c hc
  have hpow : 9 * 10 ^ (81 - countFilled b - 1) <
      10 ^ (81 - countFilled b) := by
    have he : 81 - countFilled b = (81 - countFilled b - 1) + 1 := by omega
    calc 9 * 10 ^ (81 - countFilled b - 1)
        < 10 * 10 ^ (81 - countFilled b - 1) := by
          have hpos : 0 < 10 ^ (81 - countFilled b - 1) :=
            Nat.pos_pow_of_pos _ (by omega)
          omega
    _ = 10 ^ ((81 - countFilled b - 1) + 1) := by rw [pow_succ]; ring
    _ = 10 ^ (81 - countFilled b) := by rw [← he]
  have hsplit : stackMeasure (expandFrames b x y ++ rest) =
      stackMeasure (expandFrames b x y) + stackMeasure rest := by
    unfold stackMeasure
    rw [List.map_append, List.sum_append]
  rw [hsplit, stackMeasure_cons]
  unfold frameMeasure
  omega

theorem frameMeasure_pos (b : Board) : 0 < frameMeasure b :=
  Nat.pos_pow_of_pos _ (by omega)

theorem collectSolutions_terminates_aux :
    ∀ fuel (oracle : Nat → Nat) stack solutions,
      stackMeasure stack < fuel →
      ∃ res, collectSolutions oracle fuel stack solutions = some res := by
  intro fuel
  induction fuel with
  | zero => intro _ _ _ hm; omega
  | succ n ih =>
    intro o stack sols hm
    cases stack with
    | nil => exact ⟨sols, rfl⟩
    | cons b rest =>
      rw [stackMeasure_cons] at hm
      by_cases hf : isFilled b = true
      · rw [collectSolutions_cons, if_pos hf]
        apply ih
        have := frameMeasure_pos b
        omega
      · have hnf : isFilled b = false := by simpa using hf
        obtain ⟨x, y, hxy⟩ := getUnfilledCellRand_of_not_filled (o 0) hnf
        obtain ⟨hx, hy, hzero, _⟩ := getUnfilledCellRand_some_spec hxy
        have hlt := stackMeasure_expand_lt rest hx hy hzero hnf
        rw [stackMeasure_cons] at hlt
        rw [collectSolutions_cons, if_neg hf, hxy]
        exact ih _ _ _ (by omega)

/-- C2: whenever `solution_unique` returns a verdict, that verdict is `True`
exactly when the exhaustive version of its search — same traversal, same
recording of a complete grid only if not grid-equal to one already recorded,
but no early stop — ends with exactly one recorded solution.  The early
`False` return fires exactly when a second distinct complete grid has been
recorded, and the empty-stack return yields `True` iff exactly one was
recorded (zero gives `False`). -/
theorem solution_unique_iff_unique_solution (oracle : Nat → Nat) (fuel : Nat)
    (board : Board) (verdict : Bool)
    (h : solutionUnique oracle fuel board = some (some verdict)) :
    ∃ fuel2 res, collectSolutions oracle fuel2 [board] [] = some res ∧
      (verdict = true ↔ res.length = 1) := by
  obtain ⟨res, hres⟩ := collectSolutions_terminates_aux
    (max fuel (stackMeasure [board] + 1)) oracle [board] []
    (by have := Nat.le_max_right fuel (stackMeasure [board] + 1); omega)
  have hmono := solutionUniqueAux_mono_le
    (Nat.le_max_left fuel (stackMeasure [board] + 1)) oracle [board] []
    (some verdict) h
  have hcorr := solutionUniqueAux_matches_collect
    (max fuel (stackMeasure [board] + 1)) oracle [board] [] res hres
  rw [hmono] at hcorr
  have hv : verdict = (res.length == 1) := by
    have := Option.some.inj (Option.some.inj hcorr)
    exact this
  refine ⟨_, res, hres, ?_⟩
  rw [hv]
  simp

/-- Witness for C2: on the complete valid grid `solA`, `solution_unique`
returns `True` with fuel 3, and the exhaustive search indeed records exactly
one solution. -/
theorem solution_unique_iff_unique_solution_witness :
    ∃ fuel2 res, collectSolutions oracle0 fuel2 [solA] [] = some res ∧
      (true = true ↔ res.length = 1) :=
  solution_unique_iff_unique_solution oracle0 3 solA true (by decide)

set_option maxRecDepth 1000000 in
/-- C3 (supporting evidence): the uniqueness contract that the carver relies
on is broken by the code.  `qBoard` is the valid solution `solA` with only
four cells cleared, and `solA` is its unique completion as a sudoku; yet
`solution_unique` reports "unique" while the only complete grid its search
ever records is `xBoard`, which differs from `solA` and even contradicts
`qBoard`'s own filled cell (0,5) — the propagation pass overwrote that cell
during the search.  Consequently re-solving a carved puzzle through this
path need not yield the original solution. -/
theorem solution_unique_wrong_solution :
    solutionUnique oracle0 4 qBoard = some (some true) ∧
    collectSolutions oracle0 4 [qBoard] [] = some [xBoard] ∧
    boardEq xBoard solA = false ∧
    cellGet qBoard 0 5 = 6 ∧ cellGet xBoard 0 5 = 9 ∧
    (∀ x < 9, ∀ y < 9, cellGet qBoard x y ≠ 0 → cellGet qBoard x y =
      cellGet solA x y) := by
  refine ⟨by decide, by decide, by decide, by decide, by decide, by decide⟩
